import Mathlib

/-!
Verification of the `safeGet` path resolver of the `safe-object-access`
repository (file `src/index.ts`).

The source file contains two concatenated variants of `safeGet`:

* lines 59-122: the full variant, with a process-wide path cache
  (`pathCache : Map<string, string[]>`), a `SafeGetOptions` record
  (`treatNullAsMissing`, `treatEmptyStringAsMissing`, `debug`) and
  `console.warn` diagnostics under `debug`;
* lines 166-196: a plain variant with no cache, no options and no
  diagnostics.

Both are shallowly embedded below.  The dynamic JavaScript values the
resolver walks are embedded as the tagged union `Value`; the JavaScript
own-property semantics used by `Object.hasOwn` and by bracket indexing is
made explicit (`hasOwn`, `getProp`), including the facts that a dense
array owns exactly the canonical decimal index keys below its length plus
the key "length", and that a plain object owns exactly its data keys.
The global cache is threaded as explicit state, `console.warn` output is
collected in an explicit trace list, and a separate `Except`-instrumented
variant records at exactly which operations JavaScript property access
can throw.
-/

/-- Dynamic JavaScript value shapes reachable by the resolver: the
`undefined` sentinel, `null`, booleans, numbers, strings, (dense) arrays
and plain objects.  Objects are given as their ordered own data entries;
arrays as their element list.  Numbers are embedded as integers; no claim
under verification depends on non-integral numerics. -/
inductive Value where
  | undefined
  | null
  | bool (b : Bool)
  | num (n : Int)
  | str (s : String)
  | seq (elems : List Value)
  | map (entries : List (String × Value))

/-- Embeds `SafeGetOptions` from `src/index.ts` lines 30-34; all three
flags default to `false`, as an absent field does in the source. -/
structure SafeGetOptions where
  treatNullAsMissing : Bool := false
  treatEmptyStringAsMissing : Bool := false
  debug : Bool := false

/-- One `console.warn` emission of `safeGet` (lines 67, 91-94, 103 of the
source), together with the data it logs. -/
inductive Trace where
  | targetNotObject (root : Value)
  | stoppedAtKey (key : String) (current : Value)
  | keyNotFound (key : String)

/-- True exactly on arrays and plain objects.  In the source this is the
guard `obj && typeof obj === "object"` (line 65, negated) and the loop
guard `current === null || current === undefined || typeof current !==
"object"` (lines 85-89, negated): on the `Value` union both conditions
hold exactly for arrays and objects, since `typeof null` is "object" but
`null` is falsy, and every other scalar fails the `typeof` test. -/
def isObject : Value → Bool
  | .seq _ => true
  | .map _ => true
  | _ => false

/-- True exactly on the `undefined` sentinel (the test `current ===
undefined`, line 109 of the source). -/
def Value.isUndefined : Value → Bool
  | .undefined => true
  | _ => false

/-- True exactly on `null` (the test `current === null`, line 113). -/
def Value.isNull : Value → Bool
  | .null => true
  | _ => false

/-- True exactly on the empty string (the test `current === ""`,
line 117): in JavaScript only the string value `""` is strictly equal
to `""`. -/
def Value.isEmptyStr : Value → Bool
  | .str s => s == ""
  | _ => false

/-- Decimal digits of `n`, most significant first, computed with explicit
fuel so that the definition is structurally recursive (the fuel `n + 1`
supplied by `natRepr` always suffices, since `n < 10 ^ (n + 1)`). -/
def natDigitsAux : Nat → Nat → List Char
  | 0, _ => []
  | fuel + 1, n =>
    if n < 10 then [Nat.digitChar n]
    else natDigitsAux fuel (n / 10) ++ [Nat.digitChar (n % 10)]

/-- The canonical decimal string of `n`: exactly the JavaScript
`ToString` image of the array index `n` (no sign, no leading zeros,
`"0"` for zero). -/
def natRepr (n : Nat) : String :=
  String.mk (natDigitsAux (n + 1) n)

/-- Looks for the unique `i < len` whose canonical decimal string is
`key`.  A string key is an own index property of a dense JavaScript
array of length `len` exactly when such an `i` exists. -/
def seqIndexAux (key : String) : Nat → Option Nat
  | 0 => none
  | n + 1 =>
    match seqIndexAux key n with
    | some i => some i
    | none => if natRepr n == key then some n else none

/-- Canonical-index parse of an array access key against a length. -/
def seqIndex? (len : Nat) (key : String) : Option Nat :=
  seqIndexAux key len

/-- First-match lookup among the own entries of an object (JavaScript
object keys are unique, so first-match agrees with the object model). -/
def lookupEntry : List (String × Value) → String → Option Value
  | [], _ => none
  | (k, v) :: rest, key => if k == key then some v else lookupEntry rest key

/-- Embeds `Object.hasOwn(current, key)` (line 99 of the source) on each
`Value` shape: an object owns exactly its data keys; a dense array owns
the canonical decimal indices below its length and the key "length"; a
string primitive (after `ToObject` wrapping) owns its character indices
and "length"; booleans and numbers own nothing.  `null` and `undefined`
make `Object.hasOwn` throw; the `false` returned here for them is inert,
as the resolver only consults `hasOwn` behind its traversability guard
(the throwing behaviour itself is modelled by `jsHasOwn` below). -/
def hasOwn : Value → String → Bool
  | .map entries, key => (lookupEntry entries key).isSome
  | .seq elems, key => key == "length" || (seqIndex? elems.length key).isSome
  | .str s, key => key == "length" || (seqIndex? s.length key).isSome
  | _, _ => false

/-- Embeds the property read `current[key]` (line 100 of the source) on
each `Value` shape, returning the `undefined` sentinel where JavaScript
would: object data keys, array indices and "length", string characters
and "length"; absent keys give `undefined`.  As with `hasOwn`, the
resolver only reads properties of arrays and objects whose ownership was
just established; the other cases record the host behaviour. -/
def getProp : Value → String → Value
  | .map entries, key => (lookupEntry entries key).getD .undefined
  | .seq elems, key =>
    if key == "length" then .num elems.length
    else
      match seqIndex? elems.length key with
      | some i => elems.getD i .undefined
      | none => .undefined
  | .str s, key =>
    if key == "length" then .num s.length
    else
      match seqIndex? s.length key with
      | some i =>
        match s.toList.get? i with
        | some c => .str (String.mk [c])
        | none => .undefined
      | none => .undefined
  | _, _ => .undefined

/-- Replaces `[` by `.` and drops `]` and the two quote characters; every
other character is kept.  This is the composition of the two `replace`
calls of lines 74-76 of the source, acting characterwise. -/
def normChar? (c : Char) : Option Char :=
  if c = '[' then some '.'
  else if c = ']' ∨ c = '\'' ∨ c = '"' then none
  else some c

/-- Splits a character list at every dot, keeping empty pieces, as
`String.prototype.split(".")` does (line 77 of the source). -/
def splitOnDot : List Char → List (List Char)
  | [] => [[]]
  | c :: cs =>
    match splitOnDot cs with
    | [] => [[c]]
    | t :: ts => if c = '.' then [] :: t :: ts else (c :: t) :: ts

/-- Path tokenization, lines 74-78 of the source: normalize brackets and
quotes to dot-separated form, split on dots, and drop empty tokens
(`filter(Boolean)`). -/
def tokenizePath (path : String) : List String :=
  ((splitOnDot (path.toList.filterMap normChar?)).filter
      (fun t => !t.isEmpty)).map (fun t => String.mk t)

/-- The traversal loop of lines 84-107 of the source, without
diagnostics: `none` signals an early return of the default value (a
non-traversable current value, or a key that is not an own property). -/
def walk : Value → List String → Option Value
  | current, [] => some current
  | current, key :: rest =>
    if isObject current then
      if hasOwn current key then walk (getProp current key) rest
      else none
    else none

/-- The traversal loop of lines 84-107 with its `console.warn`
diagnostics (emitted only under `debug`) collected in a trace list. -/
def walkD (debug : Bool) : Value → List String → Option Value × List Trace
  | current, [] => (some current, [])
  | current, key :: rest =>
    if isObject current then
      if hasOwn current key then walkD debug (getProp current key) rest
      else (none, if debug then [Trace.keyNotFound key] else [])
    else (none, if debug then [Trace.stoppedAtKey key current] else [])

/-- The post-walk missingness checks, lines 109-121 of the source, in
source order: `undefined` always falls back to the default; `null` falls
back exactly under `treatNullAsMissing`; the empty string falls back
exactly under `treatEmptyStringAsMissing`; anything else is returned
unchanged. -/
def postCheck (current defaultValue : Value) (options : SafeGetOptions) : Value :=
  if current.isUndefined then defaultValue
  else if current.isNull && options.treatNullAsMissing then defaultValue
  else if current.isEmptyStr && options.treatEmptyStringAsMissing then defaultValue
  else current

/-- The process-wide `pathCache : Map<string, string[]>` of line 36 of
the source, threaded as explicit state.  Insertion conses; lookup takes
the first match, which agrees with `Map.set` / `Map.get` since a fresh
entry shadows any older one for the same path. -/
abbrev PathCache := List (String × List String)

/-- Embeds `pathCache.get(path)` (line 72). -/
def cacheGet : PathCache → String → Option (List String)
  | [], _ => none
  | (p, ks) :: rest, path => if p == path then some ks else cacheGet rest path

/-- Embeds `pathCache.set(path, keys)` (line 79). -/
def cacheSet (cache : PathCache) (path : String) (keys : List String) : PathCache :=
  (path, keys) :: cache

/-- The key list actually walked, lines 72-80 of the source: the cached
list on a hit, a fresh tokenization on a miss. -/
def cachedKeys (cache : PathCache) (path : String) : List String :=
  match cacheGet cache path with
  | some ks => ks
  | none => tokenizePath path

/-- The cache state after the lookup of lines 72-80: unchanged on a hit,
extended with the fresh tokenization on a miss. -/
def cacheAfter (cache : PathCache) (path : String) : PathCache :=
  match cacheGet cache path with
  | some _ => cache
  | none => cacheSet cache path (tokenizePath path)

/-- Full embedding of `safeGet`, lines 59-122 of the source: the root
guard, the cached tokenization, the guarded walk and the post-walk
checks.  The result carries the value returned, the cache state after
the call and the diagnostics emitted during the call. -/
def safeGetFull (cache : PathCache) (obj : Value) (path : String)
    (defaultValue : Value) (options : SafeGetOptions) :
    Value × PathCache × List Trace :=
  if isObject obj then
    match walkD options.debug obj (cachedKeys cache path) with
    | (none, tr) => (defaultValue, cacheAfter cache path, tr)
    | (some current, tr) =>
      (postCheck current defaultValue options, cacheAfter cache path, tr)
  else
    (defaultValue, cache, if options.debug then [Trace.targetNotObject obj] else [])

/-- The value returned by the full `safeGet` when called with an empty
(equivalently, by `safeGetFull_value` below, any well-formed) cache. -/
def safeGet (obj : Value) (path : String) (defaultValue : Value)
    (options : SafeGetOptions) : Value :=
  (safeGetFull [] obj path defaultValue options).1

/-- Embedding of the plain variant of `safeGet`, lines 166-196 of the
source: no cache, no options, no diagnostics, and the final ternary
`current === undefined ? defaultValue : current`. -/
def safeGetSimple (obj : Value) (path : String) (defaultValue : Value) : Value :=
  if isObject obj then
    match walk obj (tokenizePath path) with
    | none => defaultValue
    | some current => if current.isUndefined then defaultValue else current
  else defaultValue

/-- Cache-free resolver used as the common reference point of the proofs
below: root guard, fresh tokenization, walk, post-walk checks. -/
def resolve (obj : Value) (keys : List String) (defaultValue : Value)
    (options : SafeGetOptions) : Value :=
  if isObject obj then
    match walk obj keys with
    | none => defaultValue
    | some current => postCheck current defaultValue options
  else defaultValue

/-- A cache state is well formed when every stored key list is the
tokenization of its path; the real program only ever inserts such
entries. -/
def cacheWF (cache : PathCache) : Prop :=
  ∀ p ks, cacheGet cache p = some ks → ks = tokenizePath p

/-- A JavaScript exception, for the throwing-operation instrumentation. -/
inductive JsError where
  | typeError (msg : String)

/-- The call `Object.hasOwn(current, key)` as JavaScript executes it:
it throws a TypeError when its receiver is `null` or `undefined`
(`ToObject` fails) and otherwise reports own-property membership. -/
def jsHasOwn (v : Value) (key : String) : Except JsError Bool :=
  match v with
  | .null => .error (.typeError "Cannot convert null to an object")
  | .undefined => .error (.typeError "Cannot convert undefined to an object")
  | v => .ok (hasOwn v key)

/-- The property read `current[key]` as JavaScript executes it: it
throws a TypeError on `null` and `undefined` receivers and otherwise
yields the property value (`undefined` when absent). -/
def jsGetProp (v : Value) (key : String) : Except JsError Value :=
  match v with
  | .null => .error (.typeError "Cannot read properties of null")
  | .undefined => .error (.typeError "Cannot read properties of undefined")
  | v => .ok (getProp v key)

/-- The traversal loop of lines 84-107 with the two host operations that
can throw (`Object.hasOwn` and the property read) instrumented: a
`.error` result means the loop would have raised a TypeError. -/
def walkE : Value → List String → Except JsError (Option Value)
  | current, [] => .ok (some current)
  | current, key :: rest =>
    if isObject current then
      match jsHasOwn current key with
      | .error e => .error e
      | .ok own =>
        if own then
          match jsGetProp current key with
          | .error e => .error e
          | .ok next => walkE next rest
        else .ok none
    else .ok none

/-- The whole of `safeGet` (lines 59-122) with throwing host operations
instrumented.  String normalization, splitting, cache access and
`console.warn` cannot throw in JavaScript, so the walk is the only
error source. -/
def safeGetE (cache : PathCache) (obj : Value) (path : String)
    (defaultValue : Value) (options : SafeGetOptions) : Except JsError Value :=
  if isObject obj then
    match walkE obj (cachedKeys cache path) with
    | .error e => .error e
    | .ok none => .ok defaultValue
    | .ok (some current) => .ok (postCheck current defaultValue options)
  else .ok defaultValue

/-- A character is plain when the normalization of lines 74-76 keeps it
unchanged and the split of line 77 does not cut at it. -/
def plainChar (c : Char) : Prop :=
  c ≠ '.' ∧ c ≠ '[' ∧ c ≠ ']' ∧ c ≠ '\'' ∧ c ≠ '"'

/-- A key string that tokenization carries through unchanged: nonempty
and made of plain characters. -/
def plainKey (k : String) : Prop :=
  k.toList ≠ [] ∧ ∀ c ∈ k.toList, plainChar c

/-- Decimal reading step: the value of one more digit character. -/
def decStep (a : Nat) (c : Char) : Nat := a * 10 + (c.toNat - 48)

/-- The reserved structural-inheritance key set named by the
specification.  The source code contains no such list: its only guard
is the own-property check of line 99. -/
def reservedKeys : List String := ["__proto__", "constructor", "prototype"]

/-- The traced walk returns the same optional value as the plain walk. -/
theorem walkD_fst (debug : Bool) (v : Value) (ks : List String) :
    (walkD debug v ks).1 = walk v ks := by
  induction ks generalizing v with
  | nil => rfl
  | cons k rest ih =>
    by_cases h1 : isObject v = true
    · by_cases h2 : hasOwn v k = true
      · simp [walkD, walk, h1, h2, ih]
      · simp [walkD, walk, h1, h2]
    · simp [walkD, walk, h1]

/-- The walk is compositional along key-list concatenation. -/
theorem walk_append (v : Value) (ks₁ ks₂ : List String) :
    walk v (ks₁ ++ ks₂) = (walk v ks₁).bind (fun w => walk w ks₂) := by
  induction ks₁ generalizing v with
  | nil => rfl
  | cons k rest ih =>
    by_cases h1 : isObject v = true
    · by_cases h2 : hasOwn v k = true
      · simp [walk, h1, h2, ih]
      · simp [walk, h1, h2]
    · simp [walk, h1]

theorem jsHasOwn_ok (v : Value) (key : String) (h : isObject v = true) :
    jsHasOwn v key = .ok (hasOwn v key) := by
  cases v <;> simp_all [isObject, jsHasOwn]

theorem jsGetProp_ok (v : Value) (key : String) (h : isObject v = true) :
    jsGetProp v key = .ok (getProp v key) := by
  cases v <;> simp_all [isObject, jsGetProp]

/-- The instrumented walk never throws and agrees with the plain walk. -/
theorem walkE_eq (v : Value) (ks : List String) :
    walkE v ks = .ok (walk v ks) := by
  induction ks generalizing v with
  | nil => rfl
  | cons k rest ih =>
    by_cases h1 : isObject v = true
    · by_cases h2 : hasOwn v k = true
      · simp [walkE, walk, h1, h2, jsHasOwn_ok _ _ h1, jsGetProp_ok _ _ h1, ih]
      · simp [walkE, walk, h1, h2, jsHasOwn_ok _ _ h1]
    · simp [walkE, walk, h1]

/-- The value component of the full model is the cache-free resolver on
the key list the cache supplies. -/
theorem safeGetFull_fst (cache : PathCache) (obj : Value) (path : String)
    (d : Value) (o : SafeGetOptions) :
    (safeGetFull cache obj path d o).1 = resolve obj (cachedKeys cache path) d o := by
  by_cases h1 : isObject obj = true
  · have hfst := walkD_fst o.debug obj (cachedKeys cache path)
    rcases hw : walkD o.debug obj (cachedKeys cache path) with ⟨w, tr⟩
    rw [hw] at hfst
    cases w with
    | none => simp [safeGetFull, resolve, h1, hw, ← hfst]
    | some c => simp [safeGetFull, resolve, h1, hw, ← hfst]
  · simp [safeGetFull, resolve, h1]

theorem cachedKeys_nil (path : String) : cachedKeys [] path = tokenizePath path := rfl

theorem cacheWF_nil : cacheWF [] := by
  intro p ks h
  simp [cacheGet] at h

/-- On a well-formed cache the cached key list is the tokenization. -/
theorem cachedKeys_eq (cache : PathCache) (path : String) (h : cacheWF cache) :
    cachedKeys cache path = tokenizePath path := by
  unfold cachedKeys
  rcases hc : cacheGet cache path with _ | ks
  · rfl
  · exact h path ks hc

theorem cacheWF_set (cache : PathCache) (path : String) (h : cacheWF cache) :
    cacheWF (cacheSet cache path (tokenizePath path)) := by
  intro p ks hget
  simp only [cacheSet, cacheGet] at hget
  by_cases hb : (path == p) = true
  · rw [if_pos hb] at hget
    cases hget
    rw [eq_of_beq hb]
  · rw [if_neg hb] at hget
    exact h p ks hget

theorem cacheAfter_WF (cache : PathCache) (path : String) (h : cacheWF cache) :
    cacheWF (cacheAfter cache path) := by
  unfold cacheAfter
  rcases cacheGet cache path with _ | ks
  · exact cacheWF_set cache path h
  · exact h

/-- The cache component of a call is exactly `cacheAfter` on a
traversable root and the unchanged cache otherwise. -/
theorem safeGetFull_snd (cache : PathCache) (obj : Value) (path : String)
    (d : Value) (o : SafeGetOptions) (h : cacheWF cache) :
    cacheWF (safeGetFull cache obj path d o).2.1 := by
  by_cases h1 : isObject obj = true
  · rcases hw : walkD o.debug obj (cachedKeys cache path) with ⟨w, tr⟩
    cases w with
    | none => simpa [safeGetFull, h1, hw] using cacheAfter_WF cache path h
    | some c => simpa [safeGetFull, h1, hw] using cacheAfter_WF cache path h
  · simpa [safeGetFull, h1] using h

theorem safeGet_eq_resolve (obj : Value) (path : String) (d : Value)
    (o : SafeGetOptions) :
    safeGet obj path d o = resolve obj (tokenizePath path) d o := by
  rw [safeGet, safeGetFull_fst, cachedKeys_nil]

theorem resolve_of_walk_none (obj : Value) (keys : List String) (d : Value)
    (o : SafeGetOptions) (h : walk obj keys = none) :
    resolve obj keys d o = d := by
  by_cases h1 : isObject obj = true
  · simp [resolve, h1, h]
  · simp [resolve, h1]

theorem resolve_of_walk_some (obj : Value) (keys : List String) (d c : Value)
    (o : SafeGetOptions) (h1 : isObject obj = true) (h : walk obj keys = some c) :
    resolve obj keys d o = postCheck c d o := by
  simp [resolve, h1, h]

/-- Plain characters pass normalization unchanged. -/
theorem normChar?_plain (c : Char) (h : plainChar c) : normChar? c = some c := by
  obtain ⟨h1, h2, h3, h4, h5⟩ := h
  simp [normChar?, h2, h3, h4, h5]

theorem filterMap_normChar?_plain (l : List Char) (h : ∀ c ∈ l, plainChar c) :
    l.filterMap normChar? = l := by
  induction l with
  | nil => rfl
  | cons c cs ih =>
    rw [List.filterMap_cons, normChar?_plain c (h c (by simp)),
      ih (fun x hx => h x (by simp [hx]))]

theorem splitOnDot_ne_nil (l : List Char) : splitOnDot l ≠ [] := by
  cases l with
  | nil => simp [splitOnDot]
  | cons c cs =>
    simp only [splitOnDot]
    rcases h : splitOnDot cs with _ | ⟨t, ts⟩
    · simp
    · by_cases hc : c = '.' <;> simp [hc]

/-- Splitting cuts at an explicit separator. -/
theorem splitOnDot_append_dot (a b : List Char) :
    splitOnDot (a ++ '.' :: b) = splitOnDot a ++ splitOnDot b := by
  induction a with
  | nil =>
    rcases h : splitOnDot b with _ | ⟨t, ts⟩
    · exact absurd h (splitOnDot_ne_nil b)
    · simp [splitOnDot, h]
  | cons c cs ih =>
    simp only [List.cons_append, splitOnDot, List.append_eq]
    rw [ih]
    rcases h : splitOnDot cs with _ | ⟨t, ts⟩
    · exact absurd h (splitOnDot_ne_nil cs)
    · by_cases hc : c = '.' <;> simp [hc]

theorem splitOnDot_no_dot (l : List Char) (h : '.' ∉ l) : splitOnDot l = [l] := by
  induction l with
  | nil => rfl
  | cons c cs ih =>
    simp only [splitOnDot, ih (fun hm => h (by simp [hm]))]
    have hc : c ≠ '.' := fun hc => h (by simp [hc])
    simp [hc]

/-- Tokenizing after appending a dot-separated plain key appends one
token. -/
theorem tokenizePath_append_dot (p k : String) (hk : plainKey k) :
    tokenizePath (p ++ "." ++ k) = tokenizePath p ++ [k] := by
  obtain ⟨hne, hplain⟩ := hk
  have h1 : (p ++ "." ++ k).toList = p.toList ++ '.' :: k.toList := by
    have h2 : (p ++ "." ++ k).toList = (p.toList ++ ['.']) ++ k.toList := rfl
    rw [h2, List.append_assoc]
    rfl
  have hnodot : '.' ∉ k.toList := fun hm => (hplain '.' hm).1 rfl
  unfold tokenizePath
  rw [h1, List.filterMap_append]
  have h3 : List.filterMap normChar? ('.' :: k.toList) = '.' :: k.toList := by
    rw [List.filterMap_cons]
    simp only [normChar?, if_neg (by decide : ¬('.' : Char) = '['),
      if_neg (by decide : ¬(('.' : Char) = ']' ∨ ('.' : Char) = '\'' ∨ ('.' : Char) = '"'))]
    rw [filterMap_normChar?_plain k.toList hplain]
  rw [h3, splitOnDot_append_dot, splitOnDot_no_dot k.toList hnodot,
    List.filter_append, List.map_append]
  have h4 : (List.filter (fun t => !t.isEmpty) [k.toList]) = [k.toList] := by
    have h5 : k.toList.isEmpty = false := by
      cases hl : k.toList with
      | nil => exact absurd hl hne
      | cons x xs => rfl
    simp [List.filter_cons, h5]
    exact hne
  rw [h4]
  rfl

/-- Tokenizing after appending a bracketed plain key appends the same
token. -/
theorem tokenizePath_append_bracket (p k : String) (hk : plainKey k) :
    tokenizePath (p ++ "[" ++ k ++ "]") = tokenizePath p ++ [k] := by
  obtain ⟨hne, hplain⟩ := hk
  have h1 : (p ++ "[" ++ k ++ "]").toList = p.toList ++ '[' :: (k.toList ++ [']']) := by
    have h2 : (p ++ "[" ++ k ++ "]").toList = ((p.toList ++ ['[']) ++ k.toList) ++ [']'] := rfl
    rw [h2, List.append_assoc, List.append_assoc]
    rfl
  have hnodot : '.' ∉ k.toList := fun hm => (hplain '.' hm).1 rfl
  unfold tokenizePath
  rw [h1, List.filterMap_append]
  have h3 : List.filterMap normChar? ('[' :: (k.toList ++ [']'])) = '.' :: k.toList := by
    rw [List.filterMap_cons]
    simp only [normChar?, if_pos rfl]
    rw [List.filterMap_append, filterMap_normChar?_plain k.toList hplain]
    simp [normChar?]
  rw [h3, splitOnDot_append_dot, splitOnDot_no_dot k.toList hnodot,
    List.filter_append, List.map_append]
  have h4 : (List.filter (fun t => !t.isEmpty) [k.toList]) = [k.toList] := by
    have h5 : k.toList.isEmpty = false := by
      cases hl : k.toList with
      | nil => exact absurd hl hne
      | cons x xs => rfl
    simp [List.filter_cons, h5]
    exact hne
  rw [h4]
  rfl

theorem digitChar_isDigit : ∀ k, k < 10 → (Nat.digitChar k).isDigit = true := by
  decide

theorem digitChar_decVal : ∀ k, k < 10 → (Nat.digitChar k).toNat - 48 = k := by
  decide

theorem natDigitsAux_isDigit :
    ∀ fuel n, ∀ c ∈ natDigitsAux fuel n, c.isDigit = true := by
  intro fuel
  induction fuel with
  | zero => intro n c hc; simp [natDigitsAux] at hc
  | succ f ih =>
    intro n c hc
    by_cases h : n < 10
    · simp only [natDigitsAux, if_pos h, List.mem_singleton] at hc
      subst hc
      exact digitChar_isDigit n h
    · simp only [natDigitsAux, if_neg h, List.mem_append, List.mem_singleton] at hc
      rcases hc with hc | hc
      · exact ih (n / 10) c hc
      · subst hc
        exact digitChar_isDigit (n % 10) (Nat.mod_lt n (by norm_num))

theorem natDigitsAux_ne_nil (fuel n : Nat) (h : fuel ≠ 0) :
    natDigitsAux fuel n ≠ [] := by
  cases fuel with
  | zero => exact absurd rfl h
  | succ f =>
    by_cases h10 : n < 10
    · simp [natDigitsAux, h10]
    · simp [natDigitsAux, h10]

/-- Reading the produced digits back, starting from any accumulator,
recovers the number. -/
theorem natDigitsAux_foldl :
    ∀ fuel n acc, n < 10 ^ fuel →
      List.foldl decStep acc (natDigitsAux fuel n)
        = acc * 10 ^ (natDigitsAux fuel n).length + n := by
  intro fuel
  induction fuel with
  | zero =>
    intro n acc h
    have hn : n = 0 := Nat.lt_one_iff.1 h
    subst hn
    simp [natDigitsAux]
  | succ f ih =>
    intro n acc h
    by_cases h10 : n < 10
    · simp only [natDigitsAux, if_pos h10, List.foldl_cons, List.foldl_nil,
        List.length_singleton, pow_one, decStep]
      rw [digitChar_decVal n h10]
    · have hdiv : n / 10 < 10 ^ f := by
        rw [Nat.div_lt_iff_lt_mul (by norm_num : 0 < 10)]
        calc n < 10 ^ (f + 1) := h
          _ = 10 ^ f * 10 := pow_succ 10 f
      simp only [natDigitsAux, if_neg h10, List.foldl_append, List.foldl_cons,
        List.foldl_nil, List.length_append, List.length_singleton]
      rw [ih (n / 10) acc hdiv]
      simp only [decStep]
      rw [digitChar_decVal (n % 10) (Nat.mod_lt n (by norm_num))]
      have hmod : n / 10 * 10 + n % 10 = n := by omega
      rw [pow_succ, ← Nat.mul_assoc, Nat.add_mul]
      omega

theorem natRepr_foldl (n : Nat) : List.foldl decStep 0 (natRepr n).toList = n := by
  have h : n < 10 ^ (n + 1) :=
    lt_of_lt_of_le (Nat.lt_pow_self (by norm_num) n)
      (Nat.pow_le_pow_right (by norm_num) (Nat.le_succ n))
  have h2 := natDigitsAux_foldl (n + 1) n 0 h
  simpa [natRepr] using h2

/-- Distinct numbers have distinct canonical decimal strings. -/
theorem natRepr_injective {a b : Nat} (h : natRepr a = natRepr b) : a = b := by
  have h1 := natRepr_foldl a
  have h2 := natRepr_foldl b
  rw [h] at h1
  exact h1.symm.trans h2

theorem natRepr_toList_ne_nil (n : Nat) : (natRepr n).toList ≠ [] := by
  have h := natDigitsAux_ne_nil (n + 1) n (Nat.succ_ne_zero n)
  simpa [natRepr] using h

theorem natRepr_isDigit (n : Nat) : ∀ c ∈ (natRepr n).toList, c.isDigit = true := by
  intro c hc
  exact natDigitsAux_isDigit (n + 1) n c (by simpa [natRepr] using hc)

theorem isDigit_plainChar (c : Char) (h : c.isDigit = true) : plainChar c := by
  refine ⟨?_, ?_, ?_, ?_, ?_⟩ <;>
    · rintro rfl
      exact absurd h (by decide)

theorem natRepr_plainKey (n : Nat) : plainKey (natRepr n) :=
  ⟨natRepr_toList_ne_nil n, fun c hc => isDigit_plainChar c (natRepr_isDigit n c hc)⟩

theorem natRepr_ne_length (n : Nat) : natRepr n ≠ "length" := by
  intro h
  have hd : ('l' : Char).isDigit = true :=
    natRepr_isDigit n 'l' (by rw [h]; decide)
  exact absurd hd (by decide)

/-- Only genuine in-range canonical indices are found. -/
theorem seqIndexAux_sound (key : String) :
    ∀ len i, seqIndexAux key len = some i → i < len ∧ natRepr i = key := by
  intro len
  induction len with
  | zero => intro i h; simp [seqIndexAux] at h
  | succ m ih =>
    intro i h
    simp only [seqIndexAux] at h
    rcases hm : seqIndexAux key m with _ | j
    · rw [hm] at h
      by_cases hb : (natRepr m == key) = true
      · rw [if_pos hb] at h
        cases h
        exact ⟨Nat.lt_succ_self m, eq_of_beq hb⟩
      · rw [if_neg hb] at h
        cases h
    · rw [hm] at h
      injection h with hji
      subst hji
      obtain ⟨h1, h2⟩ := ih j hm
      exact ⟨Nat.lt_succ_of_lt h1, h2⟩

/-- The canonical decimal string of an in-range index is found, at that
index. -/
theorem seqIndexAux_natRepr (i : Nat) :
    ∀ len, i < len → seqIndexAux (natRepr i) len = some i := by
  intro len
  induction len with
  | zero => intro h; exact absurd h (Nat.not_lt_zero i)
  | succ m ih =>
    intro h
    simp only [seqIndexAux]
    rcases hm : seqIndexAux (natRepr i) m with _ | j
    · have him : ¬ i < m := fun hlt => by rw [ih hlt] at hm; cases hm
      have hi : i = m := by omega
      subst hi
      simp
    · obtain ⟨h1, h2⟩ := seqIndexAux_sound (natRepr i) m j hm
      rw [natRepr_injective h2]

theorem seqIndex?_natRepr {i len : Nat} (h : i < len) :
    seqIndex? len (natRepr i) = some i :=
  seqIndexAux_natRepr i len h

theorem seqIndex?_eq_some_iff {len i : Nat} {key : String} :
    seqIndex? len key = some i ↔ i < len ∧ natRepr i = key := by
  constructor
  · exact fun h => seqIndexAux_sound key len i h
  · rintro ⟨h1, rfl⟩
    exact seqIndex?_natRepr h1

theorem isObject_of_walk_cons {v w : Value} {k : String} {ks : List String}
    (h : walk v (k :: ks) = some w) : isObject v = true := by
  by_cases hv : isObject v = true
  · exact hv
  · simp [walk, hv] at h

/-- On default flags the deep check of the full variant reduces to the
undefined check of the plain variant. -/
theorem postCheck_default (c d : Value) :
    postCheck c d ⟨false, false, false⟩ = if c.isUndefined then d else c := by
  by_cases h : c.isUndefined = true <;> simp [postCheck, h]

/-- Claim C5: a root that is null, absent (undefined) or any scalar
(boolean, number or string) makes `safeGet` return the default value for
every path, every default and every option combination. -/
theorem safeGet_non_traversable_root (path : String) (d : Value) (o : SafeGetOptions) :
    safeGet .null path d o = d ∧
    safeGet .undefined path d o = d ∧
    (∀ b, safeGet (.bool b) path d o = d) ∧
    (∀ n, safeGet (.num n) path d o = d) ∧
    (∀ s, safeGet (.str s) path d o = d) :=
  ⟨rfl, rfl, fun _ => rfl, fun _ => rfl, fun _ => rfl⟩

/-- Claim C9: the debug flag changes neither the value returned nor the
resulting cache state; diagnostics are its only effect. -/
theorem safeGet_debug_independent (cache : PathCache) (obj : Value) (path : String)
    (d : Value) (tn te b₁ b₂ : Bool) :
    (safeGetFull cache obj path d ⟨tn, te, b₁⟩).1 =
      (safeGetFull cache obj path d ⟨tn, te, b₂⟩).1 ∧
    (safeGetFull cache obj path d ⟨tn, te, b₁⟩).2.1 =
      (safeGetFull cache obj path d ⟨tn, te, b₂⟩).2.1 := by
  constructor
  · rw [safeGetFull_fst, safeGetFull_fst]
    rfl
  · by_cases h : isObject obj = true
    · rcases hw1 : walkD b₁ obj (cachedKeys cache path) with ⟨w1, t1⟩
      rcases hw2 : walkD b₂ obj (cachedKeys cache path) with ⟨w2, t2⟩
      cases w1 <;> cases w2 <;> simp [safeGetFull, h, hw1, hw2]
    · simp [safeGetFull, h]

/-- Claim C2: with every throwing host operation instrumented, `safeGet`
returns an `ok` outcome on every input, equal to the value of the pure
model: no exception ever escapes, whatever the root, path, default,
options and cache state. -/
theorem safeGet_never_throws (cache : PathCache) (obj : Value) (path : String)
    (d : Value) (o : SafeGetOptions) :
    safeGetE cache obj path d o = Except.ok (safeGetFull cache obj path d o).1 := by
  by_cases h : isObject obj = true
  · rw [safeGetFull_fst]
    simp only [safeGetE, h, if_true, walkE_eq]
    rcases hw : walk obj (cachedKeys cache path) with _ | c
    · simp [resolve, h, hw]
    · simp [resolve, h, hw]
  · simp [safeGetE, safeGetFull, h]

theorem splitOnDot_all_dot (l : List Char) (h : ∀ c ∈ l, c = '.') :
    ∀ t ∈ splitOnDot l, t = [] := by
  induction l with
  | nil => intro t ht; simpa [splitOnDot] using ht
  | cons c cs ih =>
    intro t ht
    have hc : c = '.' := h c (by simp)
    rcases hm : splitOnDot cs with _ | ⟨u, us⟩
    · exact absurd hm (splitOnDot_ne_nil cs)
    · simp only [splitOnDot, hm, hc, if_pos rfl] at ht
      rcases List.mem_cons.1 ht with rfl | ht2
      · rfl
      · exact ih (fun x hx => h x (by simp [hx])) t (by rw [hm]; exact ht2)

/-- A path of only separator, bracket and quote characters normalizes to
dots only, so every token is empty and tokenization returns no keys. -/
theorem tokenizePath_special_nil (path : String)
    (h : ∀ c ∈ path.toList, c ∈ ['.', '[', ']', '\'', '"']) :
    tokenizePath path = [] := by
  have hdots : ∀ c ∈ path.toList.filterMap normChar?, c = '.' := by
    intro c hc
    rw [List.mem_filterMap] at hc
    obtain ⟨a, ha, hna⟩ := hc
    have hmem := h a ha
    simp only [List.mem_cons, List.not_mem_nil, or_false] at hmem
    rcases hmem with rfl | rfl | rfl | rfl | rfl
    · simp only [normChar?] at hna
      simp at hna
      exact hna.symm
    · simp only [normChar?] at hna
      simp at hna
      exact hna.symm
    · simp [normChar?] at hna
    · simp [normChar?] at hna
    · simp [normChar?] at hna
  unfold tokenizePath
  have hfilter : List.filter (fun t => !t.isEmpty)
      (splitOnDot (path.toList.filterMap normChar?)) = [] := by
    rw [List.filter_eq_nil_iff]
    intro t ht
    rw [splitOnDot_all_dot _ hdots t ht]
    simp
  rw [hfilter]
  rfl

/-- Claim C10: when tokenization produces no keys (in particular for
paths made only of separators, brackets and quotes), a traversable root
is returned itself, not the default. -/
theorem safeGet_empty_keys_returns_root (root : Value) (path : String)
    (d : Value) (o : SafeGetOptions) (hroot : isObject root = true)
    (htok : tokenizePath path = []) :
    safeGet root path d o = root := by
  rw [safeGet_eq_resolve, htok]
  cases root <;> simp_all [resolve, walk, postCheck, isObject,
    Value.isUndefined, Value.isNull, Value.isEmptyStr]

/-- Witness for C10: a dot-only path returns the root object itself. -/
theorem safeGet_empty_keys_returns_root_witness :
    safeGet (.map [("x", .num 1)]) ".[" (.num 0) {} = .map [("x", .num 1)] :=
  safeGet_empty_keys_returns_root (.map [("x", .num 1)]) ".[" (.num 0) {} rfl
    (tokenizePath_special_nil ".[" (by decide))

/-- Claim C6: a null, undefined or scalar value reached while keys
remain makes `safeGet` return the default: a non-traversable
intermediate short-circuits the rest of the walk. -/
theorem safeGet_intermediate_blocked (obj : Value) (path : String) (d : Value)
    (o : SafeGetOptions) (ks₁ : List String) (k : String) (ks₂ : List String)
    (c : Value) (htok : tokenizePath path = ks₁ ++ k :: ks₂)
    (hwalk : walk obj ks₁ = some c) (hc : isObject c = false) :
    safeGet obj path d o = d := by
  rw [safeGet_eq_resolve, htok]
  apply resolve_of_walk_none
  rw [walk_append, hwalk]
  simp [walk, hc]

/-- Witness for C6: an explicit null at `a.b` short-circuits `a.b.c`. -/
theorem safeGet_intermediate_blocked_witness :
    safeGet (.map [("a", .map [("b", .null)])]) "a.b.c" (.str "d") {} = .str "d" :=
  safeGet_intermediate_blocked (.map [("a", .map [("b", .null)])]) "a.b.c"
    (.str "d") {} ["a", "b"] "c" [] .null rfl rfl rfl

/-- Claim C4: after a successful walk the missingness checks apply in
order: an undefined result always falls back to the default; a null
result falls back exactly under `treatNullAsMissing`; an empty-string
result falls back exactly under `treatEmptyStringAsMissing`; any other
result is returned unchanged. -/
theorem safeGet_post_walk_order (obj : Value) (path : String) (d : Value)
    (o : SafeGetOptions) (c : Value) (hobj : isObject obj = true)
    (hwalk : walk obj (tokenizePath path) = some c) :
    (c = .undefined → safeGet obj path d o = d) ∧
    (c = .null →
      safeGet obj path d o = if o.treatNullAsMissing then d else .null) ∧
    (c = .str "" →
      safeGet obj path d o = if o.treatEmptyStringAsMissing then d else .str "") ∧
    (c.isUndefined = false → c.isNull = false → c.isEmptyStr = false →
      safeGet obj path d o = c) := by
  rw [safeGet_eq_resolve, resolve_of_walk_some obj (tokenizePath path) d c o hobj hwalk]
  refine ⟨?_, ?_, ?_, ?_⟩
  · rintro rfl
    simp [postCheck, Value.isUndefined]
  · rintro rfl
    by_cases hn : o.treatNullAsMissing = true <;>
      simp [postCheck, Value.isUndefined, Value.isNull, Value.isEmptyStr, hn]
  · rintro rfl
    by_cases he : o.treatEmptyStringAsMissing = true <;>
      simp [postCheck, Value.isUndefined, Value.isNull, Value.isEmptyStr, he]
  · intro h1 h2 h3
    simp [postCheck, h1, h2, h3]

/-- Witness for C4: a null leaf under `treatNullAsMissing` yields the
default. -/
theorem safeGet_post_walk_order_witness :
    safeGet (.map [("a", .null)]) "a" (.str "d") ⟨true, false, false⟩ = .str "d" :=
  ((safeGet_post_walk_order (.map [("a", .null)]) "a" (.str "d")
    ⟨true, false, false⟩ .null rfl rfl).2.1 rfl).trans rfl

/-- Claim C8: the path cache never changes results.  On any well-formed
cache the call returns the same value as a fresh-cache call, the cache
stays well formed, an immediately repeated identical call returns the
same value, and on default options the cached variant agrees with the
plain uncached variant of lines 166-196 on every input. -/
theorem safeGet_cache_refinement (cache : PathCache) (obj : Value) (path : String)
    (d : Value) (o : SafeGetOptions) (hwf : cacheWF cache) :
    (safeGetFull cache obj path d o).1 = safeGet obj path d o ∧
    cacheWF (safeGetFull cache obj path d o).2.1 ∧
    (safeGetFull (safeGetFull cache obj path d o).2.1 obj path d o).1 =
      (safeGetFull cache obj path d o).1 ∧
    safeGet obj path d ⟨false, false, false⟩ = safeGetSimple obj path d := by
  have h1 : ∀ c : PathCache, cacheWF c →
      (safeGetFull c obj path d o).1 = resolve obj (tokenizePath path) d o :=
    fun c hc => by rw [safeGetFull_fst, cachedKeys_eq c path hc]
  refine ⟨?_, ?_, ?_, ?_⟩
  · rw [h1 cache hwf, safeGet_eq_resolve]
  · exact safeGetFull_snd cache obj path d o hwf
  · rw [h1 (safeGetFull cache obj path d o).2.1 (safeGetFull_snd cache obj path d o hwf),
      h1 cache hwf]
  · rw [safeGet_eq_resolve]
    by_cases h : isObject obj = true
    · rcases hw : walk obj (tokenizePath path) with _ | c
      · simp [resolve, safeGetSimple, h, hw]
      · simp [resolve, safeGetSimple, h, hw, postCheck_default]
    · simp [resolve, safeGetSimple, h]

/-- Witness for C8, at the empty (well-formed) cache. -/
theorem safeGet_cache_refinement_witness :
    (safeGetFull [] (.map [("a", .num 1)]) "a" (.num 0) {}).1 =
      safeGet (.map [("a", .num 1)]) "a" (.num 0) {} ∧
    cacheWF (safeGetFull [] (.map [("a", .num 1)]) "a" (.num 0) {}).2.1 ∧
    (safeGetFull (safeGetFull [] (.map [("a", .num 1)]) "a" (.num 0) {}).2.1
      (.map [("a", .num 1)]) "a" (.num 0) {}).1 =
      (safeGetFull [] (.map [("a", .num 1)]) "a" (.num 0) {}).1 ∧
    safeGet (.map [("a", .num 1)]) "a" (.num 0) ⟨false, false, false⟩ =
      safeGetSimple (.map [("a", .num 1)]) "a" (.num 0) :=
  safeGet_cache_refinement [] (.map [("a", .num 1)]) "a" (.num 0) {} cacheWF_nil

/-- Counterexample to claim C1 as stated: an own data key spelled
`__proto__` (as produced, for example, by parsing the JSON text
`{"__proto__": 1}`, which defines an own property) is resolved to its
stored value, not to the default: the code has no reserved-key denylist,
only the own-property check. -/
theorem reserved_own_key_resolves_counterexample :
    safeGet (.map [("__proto__", .num 1)]) "__proto__" (.num 0) {} = .num 1 ∧
    Value.num 1 ≠ Value.num 0 :=
  ⟨rfl, by simp⟩

/-- Claim C1 as amended: a reserved structural-inheritance key is
treated as absent exactly when it is not an own key of the object — a
lookup never falls through to the prototype chain — while a reserved
key stored as an own entry resolves like any other key. -/
theorem safeGet_reserved_key_own_only (entries : List (String × Value))
    (key : String) (d : Value) (o : SafeGetOptions) (hres : key ∈ reservedKeys) :
    (lookupEntry entries key = none → safeGet (.map entries) key d o = d) ∧
    (∀ v, lookupEntry entries key = some v →
      walk (.map entries) [key] = some v) := by
  have htok : tokenizePath key = [key] := by
    simp only [reservedKeys, List.mem_cons, List.not_mem_nil, or_false] at hres
    rcases hres with rfl | rfl | rfl <;> decide
  constructor
  · intro hown
    rw [safeGet_eq_resolve, htok]
    apply resolve_of_walk_none
    simp [walk, hasOwn, hown, isObject]
  · intro v hv
    simp [walk, hasOwn, getProp, hv, isObject]

/-- Witness for amended C1: `__proto__` is absent on an object that does
not own it, so the default is returned. -/
theorem safeGet_reserved_key_own_only_witness :
    safeGet (.map [("a", .num 1)]) "__proto__" (.num 0) {} = .num 0 :=
  (safeGet_reserved_key_own_only [("a", .num 1)] "__proto__" (.num 0) {}
    (by decide)).1 rfl

/-- Counterexample to claim C3 as stated: the key "length" does not
parse as an index, yet `Object.hasOwn` reports it on an array, so
`resolve` returns the array length instead of the default. -/
theorem seq_length_key_counterexample :
    safeGet (.map [("tags", .seq [.str "a", .str "b"])]) "tags.length"
      (.str "dflt") {} = .num 2 ∧
    Value.num 2 ≠ Value.str "dflt" :=
  ⟨rfl, by simp⟩

/-- Claim C3 as amended: on a Sequence a key counts as present exactly
when it is the canonical decimal string of an index below the length or
the key "length"; such keys step to the element (respectively the
length), and any absent key makes `safeGet` return the default. -/
theorem seq_key_presence (s : List Value) (key : String) :
    (hasOwn (.seq s) key = true ↔
      key = "length" ∨ ∃ i, i < s.length ∧ natRepr i = key) ∧
    (∀ i, seqIndex? s.length key = some i →
      walk (.seq s) [key] = some (s.getD i .undefined)) ∧
    (key = "length" → walk (.seq s) [key] = some (.num s.length)) ∧
    (∀ (root : Value) (path : String) (d : Value) (o : SafeGetOptions)
        (ks₁ ks₂ : List String),
      tokenizePath path = ks₁ ++ key :: ks₂ →
      walk root ks₁ = some (.seq s) →
      hasOwn (.seq s) key = false →
      safeGet root path d o = d) := by
  refine ⟨?_, ?_, ?_, ?_⟩
  · simp only [hasOwn, Bool.or_eq_true, beq_iff_eq, Option.isSome_iff_exists]
    exact or_congr Iff.rfl (exists_congr fun i => seqIndex?_eq_some_iff)
  · intro i hi
    obtain ⟨hlt, hrep⟩ := seqIndex?_eq_some_iff.1 hi
    have hlen : (key == "length") = false := by
      rw [beq_eq_false_iff_ne]
      rw [← hrep]
      exact natRepr_ne_length i
    simp [walk, hasOwn, getProp, hi, hlen, isObject]
  · rintro rfl
    simp [walk, hasOwn, getProp, isObject]
  · intro root path d o ks₁ ks₂ htok hwalk habs
    rw [safeGet_eq_resolve, htok]
    apply resolve_of_walk_none
    rw [walk_append, hwalk]
    simp [walk, habs, isObject]

/-- Witness for amended C3: the out-of-range index 2 on a two-element
array yields the default. -/
theorem seq_key_presence_witness :
    safeGet (.map [("tags", .seq [.str "a", .str "b"])]) "tags.2"
      (.str "dflt") {} = .str "dflt" :=
  (seq_key_presence [.str "a", .str "b"] "2").2.2.2
    (.map [("tags", .seq [.str "a", .str "b"])]) "tags.2" (.str "dflt") {}
    ["tags"] [] rfl rfl (by decide)

/-- Claim C7: tokenization makes dot and bracket notation equivalent.
The three example paths produce the identical key sequence, and for any
prefix path whose walk reaches a Sequence and any in-range index, the
dot form and the bracket form tokenize identically, resolve identically,
and (when the element is not the undefined sentinel, which the
Structured Value data model excludes from element position) both yield
that element under default options. -/
theorem dot_bracket_equivalence :
    (tokenizePath "a.b[0].c" = ["a", "b", "0", "c"] ∧
      tokenizePath "a.b.0.c" = ["a", "b", "0", "c"] ∧
      tokenizePath "a['b'][0].c" = ["a", "b", "0", "c"]) ∧
    ∀ (root : Value) (p : String) (d : Value) (s : List Value) (i : Nat),
      walk root (tokenizePath p) = some (.seq s) → i < s.length →
      tokenizePath (p ++ "." ++ natRepr i) =
        tokenizePath (p ++ "[" ++ natRepr i ++ "]") ∧
      safeGet root (p ++ "." ++ natRepr i) d ⟨false, false, false⟩ =
        safeGet root (p ++ "[" ++ natRepr i ++ "]") d ⟨false, false, false⟩ ∧
      (s.getD i .undefined ≠ .undefined →
        safeGet root (p ++ "." ++ natRepr i) d ⟨false, false, false⟩ =
          s.getD i .undefined) := by
  refine ⟨⟨by decide, by decide, by decide⟩, ?_⟩
  intro root p d s i hwalk hi
  have htok1 := tokenizePath_append_dot p (natRepr i) (natRepr_plainKey i)
  have htok2 := tokenizePath_append_bracket p (natRepr i) (natRepr_plainKey i)
  refine ⟨htok1.trans htok2.symm, ?_, ?_⟩
  · rw [safeGet_eq_resolve, safeGet_eq_resolve, htok1, htok2]
  · intro hne
    have hobj : isObject root = true := by
      rcases htp : tokenizePath p with _ | ⟨k0, ks0⟩
      · rw [htp] at hwalk
        simp only [walk, Option.some_inj] at hwalk
        rw [hwalk]
        rfl
      · rw [htp] at hwalk
        exact isObject_of_walk_cons hwalk
    have hwalk2 : walk root (tokenizePath p ++ [natRepr i]) =
        some (s.getD i .undefined) := by
      rw [walk_append, hwalk]
      have hso : hasOwn (.seq s) (natRepr i) = true := by
        simp [hasOwn, seqIndex?_natRepr hi]
      have hlen : (natRepr i == "length") = false := by
        rw [beq_eq_false_iff_ne]
        exact natRepr_ne_length i
      simp [walk, isObject, hso, getProp, hlen, seqIndex?_natRepr hi]
      intro h
      exact absurd h (natRepr_ne_length i)
    rw [safeGet_eq_resolve, htok1,
      resolve_of_walk_some root (tokenizePath p ++ [natRepr i]) d
        (s.getD i .undefined) ⟨false, false, false⟩ hobj hwalk2]
    have hU : (s.getD i Value.undefined).isUndefined = false := by
      cases hv : s.getD i Value.undefined
      · exact absurd hv hne
      all_goals rfl
    rw [postCheck_default, hU]
    simp

/-- Witness for C7 at a concrete one-element array. -/
theorem dot_bracket_equivalence_witness :
    safeGet (.map [("a", .seq [.num 7])]) ("a" ++ "." ++ natRepr 0) (.num 0)
      ⟨false, false, false⟩ = .num 7 :=
  ((dot_bracket_equivalence.2 (.map [("a", .seq [.num 7])]) "a" (.num 0)
    [.num 7] 0 rfl (by decide)).2.2 (by simp)).trans rfl
